import Mathlib

/-!
Verification development for the hermecho subtitle pipeline.

The development shallowly embeds the segment-pipeline functions of
src/subtitles.py and src/translation.py.  Times are modelled as rational
numbers, Python dictionaries for segments and words as structures, and the
external translation backend as an oracle function indexed by the call
number (so distinct calls may behave arbitrarily and independently).
-/

namespace Hermecho

/-! ### Character-level helpers for Python string primitives -/

/-- Characters surviving the whitespace test; used to model Python str.strip. -/
def stripChars (l : List Char) : List Char :=
  ((l.dropWhile Char.isWhitespace).reverse.dropWhile Char.isWhitespace).reverse

/-- Embedding of the Python expression s.strip(): removes leading and trailing
whitespace characters. -/
def pyStrip (s : String) : String := String.mk (stripChars s.data)

/-- Embedding of the Python expression s.replace(a, b) for one-character
pattern a and one-character replacement b: every occurrence of the character
a is replaced by b. -/
def replaceChar (s : String) (a b : Char) : String :=
  String.mk (s.data.map fun c => if c = a then b else c)

/-- All non-whitespace characters of a character list, in order; used to state
equality of texts modulo whitespace. -/
def removeWs (l : List Char) : List Char := l.filter fun c => !c.isWhitespace

/-- The last character exists and is not whitespace.  Word strings with this
property make the length prediction of the split look-ahead exact. -/
def endsNonWs (l : List Char) : Prop :=
  ∃ c, l.getLast? = some c ∧ c.isWhitespace = false

/-- Full-width East-Asian punctuation characters (a standard selection);
used to state the original wording of claim C9. -/
def isFullwidthPunct (c : Char) : Bool :=
  c = '，' || c = '。' || c = '、' || c = '！' || c = '？' || c = '：' ||
    c = '；' || c = '（' || c = '）' || c = '「' || c = '」'

/-! ### Data model (spec section 3) -/

/-- A word-level timestamp entry of a transcription segment. -/
structure Word where
  word : String
  start : Rat
  «end» : Rat
deriving DecidableEq

/-- A subtitle segment: the common representation of every pipeline stage.
An absent words key of the Python dictionary is modelled by the empty list,
matching the seg.get("words", []) reads in the source. -/
structure Segment where
  text : String
  start : Rat
  «end» : Rat
  words : List Word := []
deriving DecidableEq

/-- Concatenation of the word strings of a word list, as characters; embeds
the Python expression "".join([w["word"] for w in words]). -/
def joinWordsData (ws : List Word) : List Char :=
  (ws.map fun w => w.word.data).flatten

/-- Concatenated text content of a segment list, as characters. -/
def textConcat (l : List Segment) : List Char :=
  (l.map fun s => s.text.data).flatten

/-- A well-formed word string: non-empty with a non-whitespace final
character (the usual transcription shape, words carrying at most a leading
space).  Under this condition joining one more word into a chunk and
stripping grows the stripped length by exactly the word length, which is
what the look-ahead of split_long_segments predicts. -/
def goodWord (w : Word) : Bool :=
  !w.word.data.isEmpty && w.word.data.getLast?.all fun c => !c.isWhitespace

/-- The data-model invariant of the specification for the words field: when
words are present they cover exactly the span of the segment (first word
starts at the segment start, last word ends at the segment end) and their
concatenation is the segment text up to whitespace. -/
def wordsConsistent (seg : Segment) : Bool :=
  seg.words.isEmpty ||
    (decide (seg.words.head?.map Word.start = some seg.start) &&
     decide (seg.words.getLast?.map Word.«end» = some seg.«end») &&
     decide (removeWs (joinWordsData seg.words) = removeWs seg.text.data))

/-! ### src/subtitles.py: split_long_segments -/

/-- The word-accumulation loop of split_long_segments (the for loop over
words).  Arguments mirror the Python locals: the accumulated
current_chunk_words, the current_chunk_start, and the words still to be
processed.  On closing a chunk the loop emits a segment built from the
accumulated words; when a next word remains the accumulator is reset and the
chunk start moves to that next word. -/
def splitLoop (max_chars : Nat) (max_duration : Rat) :
    List Word → Rat → List Word → List Segment
  | _, _, [] => []
  | current_chunk_words, current_chunk_start, word_info :: rest =>
    let chunk_words := current_chunk_words ++ [word_info]
    let chunk_text := stripChars (joinWordsData chunk_words)
    let next_word_breaks :=
      match rest.head? with
      | none => false
      | some next_word =>
        decide (chunk_text.length + next_word.word.length > max_chars) ||
        decide (next_word.«end» - current_chunk_start > max_duration)
    if next_word_breaks || rest.isEmpty then
      { text := String.mk chunk_text, start := current_chunk_start,
        «end» := word_info.«end», words := chunk_words } ::
        (match rest with
         | [] => []
         | next_word :: _ =>
           splitLoop max_chars max_duration [] next_word.start rest)
    else
      splitLoop max_chars max_duration chunk_words current_chunk_start rest

/-- Body of the per-segment loop of split_long_segments: a segment within
both limits, or one without word timestamps, passes through unchanged;
otherwise the word-accumulation loop splits it. -/
def splitOneSegment (max_chars : Nat) (max_duration : Rat) (seg : Segment) :
    List Segment :=
  let text := pyStrip seg.text
  let duration := seg.«end» - seg.start
  if text.length ≤ max_chars ∧ duration ≤ max_duration then [seg]
  else
    match seg.words with
    | [] => [seg]
    | w :: ws => splitLoop max_chars max_duration [] w.start (w :: ws)

/-- Embedding of split_long_segments from src/subtitles.py. -/
def split_long_segments (segments : List Segment) (max_chars : Nat := 40)
    (max_duration : Rat := 7) : List Segment :=
  match segments with
  | [] => []
  | seg :: rest =>
    splitOneSegment max_chars max_duration seg ++
      split_long_segments rest max_chars max_duration

/-! ### src/subtitles.py: fill_transcription_gaps -/

/-- The pairwise loop of fill_transcription_gaps: for each adjacent pair a
placeholder segment is inserted when the gap exceeds the threshold, and the
next segment is always appended. -/
def fillLoop (gap_threshold : Rat) (placeholder : String) :
    Segment → List Segment → List Segment
  | _, [] => []
  | current_seg, next_seg :: rest =>
    let gap := next_seg.start - current_seg.«end»
    (if gap > gap_threshold then
       [{ text := placeholder, start := current_seg.«end»,
          «end» := next_seg.start, words := [] }]
     else []) ++ next_seg :: fillLoop gap_threshold placeholder next_seg rest

/-- Embedding of fill_transcription_gaps from src/subtitles.py. -/
def fill_transcription_gaps (transcribed_segments : List Segment)
    (gap_threshold : Rat := 5) (placeholder : String := "[no speech]") :
    List Segment :=
  match transcribed_segments with
  | [] => []
  | s :: rest => s :: fillLoop gap_threshold placeholder s rest

/-- Gap filling as the specification words it: walk the adjacent pairs and,
whenever the gap between the end of one segment and the start of the next
strictly exceeds the threshold, place a placeholder segment spanning exactly
that gap between them; all original segments are kept in order.  This
definition follows the claim wording and is compared against the embedding
of the source. -/
def gapFillSpec (gap_threshold : Rat) (placeholder : String) :
    List Segment → List Segment
  | [] => []
  | [s] => [s]
  | s :: t :: rest =>
    if t.start - s.«end» > gap_threshold then
      s :: { text := placeholder, start := s.«end», «end» := t.start,
             words := [] } :: gapFillSpec gap_threshold placeholder (t :: rest)
    else
      s :: gapFillSpec gap_threshold placeholder (t :: rest)

/-! ### src/subtitles.py: adjust_subtitle_timing -/

/-- The index loop of adjust_subtitle_timing.  The Python code copies every
segment and then mutates the end of each non-last copy in place; since only
end fields are written and only start fields of successors are read, the
sequential mutation is equivalent to this one-pass recursion. -/
def adjustLoop (time_buffer : Rat) : List Segment → List Segment
  | [] => []
  | [s] => [s]
  | current_segment :: next_segment :: rest =>
    let new_end_time := next_segment.start - time_buffer
    let new_end_time :=
      if new_end_time < current_segment.start then current_segment.start
      else new_end_time
    { current_segment with «end» := new_end_time } ::
      adjustLoop time_buffer (next_segment :: rest)

/-- Embedding of adjust_subtitle_timing from src/subtitles.py; the buffer is
first clamped below at zero (the Python expression max(0, time_buffer),
written as a conditional so that it evaluates by reduction). -/
def adjust_subtitle_timing (segments : List Segment) (time_buffer : Rat) :
    List Segment :=
  adjustLoop (if time_buffer < 0 then 0 else time_buffer) segments

/-! ### src/translation.py -/

/-- Maximum characters to send in a single prompt. -/
def TOKEN_THRESHOLD : Nat := 128000

/-- Number of segments per chunk. -/
def CHUNK_SIZE : Nat := 200

/-- Number of segments to overlap. -/
def OVERLAP_SIZE : Nat := 3

/-- The external translation backend, abstracted as an oracle: given the
index of the call (so repeated calls may answer differently), the list of
source texts of the chunk and the pair of previous and next context strings,
it returns the decoded translations array, or none for any transport error or
malformed response.  The target language, model name and reference material
of a run are fixed throughout it and are absorbed into the oracle. -/
def Backend : Type := Nat → List String → String × String → Option (List String)

/-- Embedding of _translate_chunk from src/translation.py: invoke the
backend on the texts of the chunk and reject (returning none, as the except
branches and the mismatch branch do) any response whose element count
differs from the chunk length.  The call counter is threaded and
incremented. -/
def tChunk (b : Backend) (n : Nat) (chunk_segments : List Segment)
    (context : String × String) : Option (List String) × Nat :=
  match b n (chunk_segments.map Segment.text) context with
  | none => (none, n + 1)
  | some translated_segments =>
    if translated_segments.length = chunk_segments.length then
      (some translated_segments, n + 1)
    else (none, n + 1)

/-- Fuel-indexed chunking helper; with fuel at least the list length and a
positive size this yields the slices l[j : j + size] for j = 0, size,
2 * size, ... as produced by the Python range-stepping loops. -/
def chunksOfAux (size : Nat) : Nat → List α → List (List α)
  | _, [] => []
  | 0, _ :: _ => []
  | fuel + 1, x :: xs => ((x :: xs).take size) :: chunksOfAux size fuel ((x :: xs).drop size)

/-- The consecutive slices of length size of a list (the last slice may be
shorter), matching the Python loop for j in range(0, len(l), size) over
l[j : j + size]. -/
def chunksOf (size : Nat) (l : List α) : List (List α) :=
  chunksOfAux size l.length l

/-- Level 3 of the cascading fallback: the loop over mini-chunks of size 10.
A failed mini-chunk contributes one empty string per segment. -/
def miniLoop (b : Backend) (context : String × String) :
    Nat → List (List Segment) → List String × Nat
  | n, [] => ([], n)
  | n, mini_chunk :: rest =>
    match tChunk b n mini_chunk context with
    | (none, n1) =>
      let (acc, n2) := miniLoop b context n1 rest
      (List.replicate mini_chunk.length "" ++ acc, n2)
    | (some mini_result, n1) =>
      let (acc, n2) := miniLoop b context n1 rest
      (mini_result ++ acc, n2)

/-- Level 2 of the cascading fallback: the loop over sub-chunks of size 50;
a failed sub-chunk is retried as mini-chunks of size 10. -/
def subLoop (b : Backend) (context : String × String) :
    Nat → List (List Segment) → List String × Nat
  | n, [] => ([], n)
  | n, sub_chunk :: rest =>
    match tChunk b n sub_chunk context with
    | (none, n1) =>
      let (mini, n2) := miniLoop b context n1 (chunksOf 10 sub_chunk)
      let (acc, n3) := subLoop b context n2 rest
      (mini ++ acc, n3)
    | (some sub_result, n1) =>
      let (acc, n2) := subLoop b context n1 rest
      (sub_result ++ acc, n2)

/-- Translation of one chunk with the cascading fallback of
translate_segments: the primary chunk-level call, and on failure the
subdivision into sub-chunks of 50 (and further into mini-chunks of 10,
bottoming out in empty strings). -/
def chunkFallback (b : Backend) (n : Nat) (chunk : List Segment)
    (context : String × String) : List String × Nat :=
  match tChunk b n chunk context with
  | (some translated_chunk, n1) => (translated_chunk, n1)
  | (none, n1) => subLoop b context n1 (chunksOf 50 chunk)

/-- The sliding-window loop of translate_segments over the chunk indices:
each index slices its chunk and its previous and next context windows from
the segment list and translates the chunk with the cascading fallback.  The
Python code extends the accumulator only when the translated chunk is
non-empty; extending with an empty list is the same, so the append is
unconditional here. -/
def windowLoop (b : Backend) (segments : List Segment) :
    Nat → List Nat → List String × Nat
  | n, [] => ([], n)
  | n, i :: is =>
    let num_segments := segments.length
    let start_index := i * CHUNK_SIZE
    let end_index := min (start_index + CHUNK_SIZE) num_segments
    let chunk := (segments.drop start_index).take (end_index - start_index)
    let prev_start := start_index - OVERLAP_SIZE
    let prev_context :=
      String.intercalate "\n"
        (((segments.drop prev_start).take (start_index - prev_start)).map Segment.text)
    let next_end := min (end_index + OVERLAP_SIZE) num_segments
    let next_context :=
      String.intercalate "\n"
        (((segments.drop end_index).take (next_end - end_index)).map Segment.text)
    let (translated_chunk, n1) := chunkFallback b n chunk (prev_context, next_context)
    let (acc, n2) := windowLoop b segments n1 is
    (translated_chunk ++ acc, n2)

/-- Cleanup applied to a successfully translated text in the final assembly
loop: replace the full-width comma and the ideographic full stop by spaces,
then strip. -/
def cleanupText (translated_text : String) : String :=
  pyStrip (replaceChar (replaceChar translated_text '，' ' ') '。' ' ')

/-- One iteration of the final assembly loop of translate_segments: copy the
i-th input segment and set its text from the i-th translated text (cleaned
up), force it empty when the original text is the silence placeholder, and
fall back to the empty string when no i-th translated text exists. -/
def assembleOne (translated_segments_text : List String) (i : Nat)
    (segment : Segment) : Segment :=
  let original_text := pyStrip segment.text
  if original_text = "[no speech]" then { segment with text := "" }
  else
    match translated_segments_text[i]? with
    | some translated_text => { segment with text := cleanupText translated_text }
    | none => { segment with text := "" }

/-- The final assembly loop of translate_segments over the enumerated input
segments. -/
def assembleLoop (translated_segments_text : List String) :
    Nat → List Segment → List Segment
  | _, [] => []
  | i, segment :: rest =>
    assembleOne translated_segments_text i segment ::
      assembleLoop translated_segments_text (i + 1) rest

/-- Embedding of translate_segments from src/translation.py: choose the
single-batch strategy when the estimated prompt size is below the threshold,
fall back to (or start with) the sliding window over chunks of CHUNK_SIZE,
and assemble the translated texts back into the segment structure.  The
outer Python try block only converts exceptions escaping the statements
modelled here (none do, all backend failures being caught inside
_translate_chunk) into a None result, so the embedding returns the list
directly. -/
def translate_segments (b : Backend) (segments : List Segment)
    (reference_material : Option String) : List Segment :=
  let num_segments := segments.length
  let full_text := String.intercalate "\n" (segments.map Segment.text)
  let prompt_overhead := (reference_material.getD "").length + 1000
  let total_length := full_text.length + prompt_overhead
  let num_chunks := (num_segments + CHUNK_SIZE - 1) / CHUNK_SIZE
  let translated_segments_text :=
    if total_length < TOKEN_THRESHOLD then
      match tChunk b 0 segments ("", "") with
      | (some ts, _) => ts
      | (none, n1) => (windowLoop b segments n1 (List.range num_chunks)).1
    else
      (windowLoop b segments 0 (List.range num_chunks)).1
  assembleLoop translated_segments_text 0 segments

/-! ### Lemmas about the string helpers -/

theorem mem_stripChars {l : List Char} {c : Char} (h : c ∈ stripChars l) : c ∈ l := by
  unfold stripChars at h
  rw [List.mem_reverse] at h
  have h2 := (List.dropWhile_sublist _).subset h
  rw [List.mem_reverse] at h2
  exact (List.dropWhile_sublist _).subset h2

theorem removeWs_append (a b : List Char) :
    removeWs (a ++ b) = removeWs a ++ removeWs b := by
  unfold removeWs
  exact List.filter_append _ _

theorem removeWs_dropWhile (l : List Char) :
    removeWs (l.dropWhile Char.isWhitespace) = removeWs l := by
  induction l with
  | nil => rfl
  | cons x xs ih =>
    by_cases h : x.isWhitespace = true
    · rw [List.dropWhile_cons_of_pos h, ih]
      simp [removeWs, List.filter_cons, h]
    · rw [List.dropWhile_cons_of_neg (by simp [h])]

theorem removeWs_reverse (l : List Char) :
    removeWs l.reverse = (removeWs l).reverse :=
  List.filter_reverse _ _

theorem removeWs_stripChars (l : List Char) :
    removeWs (stripChars l) = removeWs l := by
  unfold stripChars
  rw [removeWs_reverse, removeWs_dropWhile, removeWs_reverse,
    removeWs_dropWhile, List.reverse_reverse]

theorem endsNonWs.ne_nil {l : List Char} (h : endsNonWs l) : l ≠ [] := by
  obtain ⟨c, hc, -⟩ := h
  intro h0
  subst h0
  simp at hc

theorem dropWhile_ne_nil_of_mem {p : Char → Bool} {l : List Char} {c : Char}
    (hm : c ∈ l) (hc : p c = false) : l.dropWhile p ≠ [] := by
  induction l with
  | nil => cases hm
  | cons x xs ih =>
    rw [List.dropWhile_cons]
    split
    · rename_i hx
      rcases List.mem_cons.mp hm with h | h
      · subst h
        rw [hc] at hx
        cases hx
      · exact ih h
    · simp

theorem getLast?_of_suffix {α : Type _} {l₁ l₂ : List α} (h : l₁ <:+ l₂)
    (hne : l₁ ≠ []) : l₂.getLast? = l₁.getLast? := by
  obtain ⟨t, rfl⟩ := h
  exact List.getLast?_append_of_ne_nil t hne

theorem dropWhile_eq_self_of_head {l : List Char}
    (h : ∀ x, l.head? = some x → Char.isWhitespace x = false) :
    l.dropWhile Char.isWhitespace = l := by
  cases l with
  | nil => rfl
  | cons x xs => rw [List.dropWhile_cons_of_neg (by simp [h x rfl])]

theorem stripChars_eq_dropWhile_of_endsNonWs {l : List Char} (h : endsNonWs l) :
    stripChars l = l.dropWhile Char.isWhitespace := by
  obtain ⟨c, hc, hcw⟩ := h
  set d := l.dropWhile Char.isWhitespace with hd
  have hd_ne : d ≠ [] :=
    dropWhile_ne_nil_of_mem (List.mem_of_getLast?_eq_some hc) hcw
  have hlast : d.getLast? = l.getLast? :=
    (getLast?_of_suffix (List.dropWhile_suffix _) hd_ne).symm
  have hrev : d.reverse.dropWhile Char.isWhitespace = d.reverse := by
    apply dropWhile_eq_self_of_head
    intro x hx
    rw [List.head?_reverse, hlast, hc] at hx
    cases hx
    exact hcw
  unfold stripChars
  rw [← hd, hrev, List.reverse_reverse]

theorem stripChars_append_of_endsNonWs {a b : List Char} (ha : endsNonWs a)
    (hb : endsNonWs b) : stripChars (a ++ b) = stripChars a ++ b := by
  have hbne : b ≠ [] := endsNonWs.ne_nil hb
  obtain ⟨ca, hca, hcaw⟩ := ha
  have hab : endsNonWs (a ++ b) := by
    obtain ⟨cb, hcb, hcbw⟩ := hb
    exact ⟨cb, by rw [List.getLast?_append_of_ne_nil _ hbne, hcb], hcbw⟩
  rw [stripChars_eq_dropWhile_of_endsNonWs hab,
    stripChars_eq_dropWhile_of_endsNonWs ⟨ca, hca, hcaw⟩]
  rw [List.dropWhile_append]
  have hne : a.dropWhile Char.isWhitespace ≠ [] :=
    dropWhile_ne_nil_of_mem (List.mem_of_getLast?_eq_some hca) hcaw
  simp only [List.isEmpty_iff]
  rw [if_neg hne]

theorem stripChars_idem (l : List Char) : stripChars (stripChars l) = stripChars l := by
  cases hr : stripChars l with
  | nil => rfl
  | cons x xs =>
    rw [← hr]
    have hends : endsNonWs (stripChars l) := by
      have h1 : (stripChars l).reverse =
          (l.dropWhile Char.isWhitespace).reverse.dropWhile Char.isWhitespace := by
        unfold stripChars
        rw [List.reverse_reverse]
      rcases hh : (stripChars l).reverse.head? with - | y
      · rw [List.head?_eq_none_iff] at hh
        rw [hr] at hh
        simp at hh
      · refine ⟨y, ?_, ?_⟩
        · rw [List.getLast?_eq_head?_reverse, hh]
        · have := List.head?_dropWhile_not Char.isWhitespace
            (l.dropWhile Char.isWhitespace).reverse
          rw [← h1, hh] at this
          exact this
    rw [stripChars_eq_dropWhile_of_endsNonWs hends]
    apply dropWhile_eq_self_of_head
    intro z hz
    -- the head of stripChars l is the head of dropWhile on l, hence not whitespace
    have h2 : (stripChars l).head? =
        ((l.dropWhile Char.isWhitespace).reverse.dropWhile Char.isWhitespace).reverse.head? := by
      rfl
    rw [h2, List.head?_reverse] at hz
    have hdd : (l.dropWhile Char.isWhitespace).reverse.dropWhile Char.isWhitespace ≠ [] := by
      intro h0
      have : stripChars l = [] := by
        unfold stripChars
        rw [h0]
        rfl
      rw [this] at hr
      cases hr
    have hsuffix := getLast?_of_suffix
      (List.dropWhile_suffix (l := (l.dropWhile Char.isWhitespace).reverse)
        Char.isWhitespace) hdd
    rw [← hsuffix, List.getLast?_eq_head?_reverse, List.reverse_reverse] at hz
    have hl_ne : l.dropWhile Char.isWhitespace ≠ [] := by
      intro h0
      rw [h0] at hdd
      simp at hdd
    have := List.head?_dropWhile_not Char.isWhitespace l
    rw [hz] at this
    exact this

theorem pyStrip_idem (s : String) : pyStrip (pyStrip s) = pyStrip s := by
  unfold pyStrip
  rw [stripChars_idem]

/-! ### Lemmas about the final assembly loop of translate_segments -/

theorem assembleLoop_length (tst : List String) :
    ∀ (i : Nat) (segs : List Segment), (assembleLoop tst i segs).length = segs.length
  | _, [] => rfl
  | i, _ :: rest => by
    simp only [assembleLoop, List.length_cons]
    rw [assembleLoop_length tst (i + 1) rest]

theorem assembleLoop_getElem? (tst : List String) :
    ∀ (segs : List Segment) (j i : Nat),
      (assembleLoop tst j segs)[i]? = (segs[i]?).map fun s => assembleOne tst (j + i) s := by
  intro segs
  induction segs with
  | nil => intro j i; simp [assembleLoop]
  | cons s rest ih =>
    intro j i
    cases i with
    | zero => simp [assembleLoop]
    | succ i2 =>
      simp only [assembleLoop, List.getElem?_cons_succ]
      rw [ih (j + 1) i2]
      have harith : j + 1 + i2 = j + (i2 + 1) := by omega
      rw [harith]

theorem translate_segments_eq_assemble (b : Backend) (segments : List Segment)
    (reference_material : Option String) :
    ∃ tst, translate_segments b segments reference_material = assembleLoop tst 0 segments := by
  unfold translate_segments
  exact ⟨_, rfl⟩

theorem assembleOne_fields (tst : List String) (i : Nat) (s : Segment) :
    (assembleOne tst i s).start = s.start ∧ (assembleOne tst i s).«end» = s.«end» ∧
      (assembleOne tst i s).words = s.words := by
  simp only [assembleOne]
  split
  · exact ⟨rfl, rfl, rfl⟩
  · split
    · exact ⟨rfl, rfl, rfl⟩
    · exact ⟨rfl, rfl, rfl⟩

theorem assembleOne_erase_text (tst : List String) (i : Nat) (s : Segment) :
    { assembleOne tst i s with text := "" } = { s with text := "" } := by
  simp only [assembleOne]
  split
  · rfl
  · split
    · rfl
    · rfl

theorem text_of_mem_assembleLoop (tst : List String) :
    ∀ (segs : List Segment) (j : Nat) (s : Segment), s ∈ assembleLoop tst j segs →
      s.text = "" ∨ ∃ t, s.text = cleanupText t := by
  intro segs
  induction segs with
  | nil => intro j s h; cases h
  | cons a rest ih =>
    intro j s h
    rcases List.mem_cons.mp h with h | h
    · subst h
      simp only [assembleOne]
      split
      · exact Or.inl rfl
      · split
        · exact Or.inr ⟨_, rfl⟩
        · exact Or.inl rfl
    · exact ih (j + 1) s h

theorem data_replaceChar (s : String) (a b : Char) :
    (replaceChar s a b).data = s.data.map fun c => if c = a then b else c := rfl

theorem cleanupText_no_fullwidth (t : String) :
    '，' ∉ (cleanupText t).data ∧ '。' ∉ (cleanupText t).data := by
  constructor <;> intro hmem
  · have h1 : '，' ∈ (replaceChar (replaceChar t '，' ' ') '。' ' ').data :=
      mem_stripChars hmem
    rw [data_replaceChar] at h1
    simp only [List.mem_map] at h1
    obtain ⟨x, hx, hxe⟩ := h1
    by_cases hx2 : x = '。'
    · rw [if_pos hx2] at hxe
      cases hxe
    · rw [if_neg hx2] at hxe
      subst hxe
      rw [data_replaceChar] at hx
      simp only [List.mem_map] at hx
      obtain ⟨y, _, hye⟩ := hx
      by_cases hy2 : y = '，'
      · rw [if_pos hy2] at hye
        cases hye
      · rw [if_neg hy2] at hye
        exact hy2 hye
  · have h1 : '。' ∈ (replaceChar (replaceChar t '，' ' ') '。' ' ').data :=
      mem_stripChars hmem
    rw [data_replaceChar] at h1
    simp only [List.mem_map] at h1
    obtain ⟨x, hx, hxe⟩ := h1
    by_cases hx2 : x = '。'
    · rw [if_pos hx2] at hxe
      cases hxe
    · rw [if_neg hx2] at hxe
      exact hx2 hxe

/-! ### Lemmas about the cascading fallback -/

theorem chunksOfAux_flatten {α : Type _} (size : Nat) (hs : 0 < size) :
    ∀ (fuel : Nat) (l : List α), l.length ≤ fuel → (chunksOfAux size fuel l).flatten = l := by
  intro fuel
  induction fuel with
  | zero =>
    intro l hl
    cases l with
    | nil => rfl
    | cons x xs => simp at hl
  | succ f ih =>
    intro l hl
    cases l with
    | nil => rfl
    | cons x xs =>
      simp only [chunksOfAux, List.flatten_cons]
      rw [ih ((x :: xs).drop size) (by simp only [List.length_drop]; omega)]
      exact List.take_append_drop size (x :: xs)

theorem chunksOf_flatten {α : Type _} (size : Nat) (hs : 0 < size) (l : List α) :
    (chunksOf size l).flatten = l :=
  chunksOfAux_flatten size hs l.length l le_rfl

theorem tChunk_length {b : Backend} {n : Nat} {chunk : List Segment}
    {ctx : String × String} {ts : List String} {n2 : Nat}
    (h : tChunk b n chunk ctx = (some ts, n2)) : ts.length = chunk.length := by
  unfold tChunk at h
  split at h
  · cases h
  · split at h
    · cases h
      assumption
    · cases h

theorem miniLoop_length (b : Backend) (ctx : String × String) :
    ∀ (minis : List (List Segment)) (n : Nat),
      (miniLoop b ctx n minis).1.length = (minis.map List.length).sum := by
  intro minis
  induction minis with
  | nil => intro n; rfl
  | cons m rest ih =>
    intro n
    simp only [miniLoop]
    split
    · rename_i n1 heq
      rcases hr : miniLoop b ctx n1 rest with ⟨acc, n2⟩
      have h2 := ih n1
      rw [hr] at h2
      simp [h2]
    · rename_i ts n1 heq
      rcases hr : miniLoop b ctx n1 rest with ⟨acc, n2⟩
      have h2 := ih n1
      rw [hr] at h2
      simp [h2, tChunk_length heq]

theorem subLoop_length (b : Backend) (ctx : String × String) :
    ∀ (subs : List (List Segment)) (n : Nat),
      (subLoop b ctx n subs).1.length = (subs.map List.length).sum := by
  intro subs
  induction subs with
  | nil => intro n; rfl
  | cons sub rest ih =>
    intro n
    simp only [subLoop]
    split
    · rename_i n1 heq
      rcases hm : miniLoop b ctx n1 (chunksOf 10 sub) with ⟨mini, n2⟩
      rcases hs : subLoop b ctx n2 rest with ⟨acc, n3⟩
      have hmini : mini.length = sub.length := by
        have h2 := miniLoop_length b ctx (chunksOf 10 sub) n1
        rw [hm] at h2
        rw [h2, ← List.length_flatten, chunksOf_flatten 10 (by norm_num)]
      have hacc : acc.length = (rest.map List.length).sum := by
        have h2 := ih n2
        rw [hs] at h2
        exact h2
      simp [hmini, hacc]
    · rename_i ts n1 heq
      rcases hs : subLoop b ctx n1 rest with ⟨acc, n2⟩
      have hacc : acc.length = (rest.map List.length).sum := by
        have h2 := ih n1
        rw [hs] at h2
        exact h2
      simp [hacc, tChunk_length heq]

theorem chunkFallback_length (b : Backend) (n : Nat) (chunk : List Segment)
    (ctx : String × String) : (chunkFallback b n chunk ctx).1.length = chunk.length := by
  unfold chunkFallback
  split
  · rename_i ts n1 heq
    exact tChunk_length heq
  · rename_i n1 heq
    rw [subLoop_length, ← List.length_flatten, chunksOf_flatten 50 (by norm_num)]

theorem miniLoop_allFail (ctx : String × String) :
    ∀ (minis : List (List Segment)) (n : Nat),
      (miniLoop (fun _ _ _ => none) ctx n minis).1 =
        List.replicate ((minis.map List.length).sum) "" := by
  intro minis
  induction minis with
  | nil => intro n; rfl
  | cons m rest ih =>
    intro n
    simp only [miniLoop, tChunk]
    rcases hr : miniLoop (fun _ _ _ => none) ctx (n + 1) rest with ⟨acc, n2⟩
    have hacc : acc = List.replicate ((rest.map List.length).sum) "" := by
      have h2 := ih (n + 1)
      rw [hr] at h2
      exact h2
    simp only [List.map_cons, List.sum_cons, hacc]
    rw [List.replicate_add]

theorem subLoop_allFail (ctx : String × String) :
    ∀ (subs : List (List Segment)) (n : Nat),
      (subLoop (fun _ _ _ => none) ctx n subs).1 =
        List.replicate ((subs.map List.length).sum) "" := by
  intro subs
  induction subs with
  | nil => intro n; rfl
  | cons sub rest ih =>
    intro n
    simp only [subLoop, tChunk]
    rcases hm : miniLoop (fun _ _ _ => none) ctx (n + 1) (chunksOf 10 sub) with ⟨mini, n2⟩
    rcases hs : subLoop (fun _ _ _ => none) ctx n2 rest with ⟨acc, n3⟩
    have hsum : (List.map List.length (chunksOf 10 sub)).sum = sub.length := by
      rw [← List.length_flatten, chunksOf_flatten 10 (by norm_num)]
    have hmini : mini = List.replicate sub.length "" := by
      have h2 := miniLoop_allFail ctx (chunksOf 10 sub) (n + 1)
      rw [hm, hsum] at h2
      exact h2
    have hacc : acc = List.replicate ((rest.map List.length).sum) "" := by
      have h2 := ih n2
      rw [hs] at h2
      exact h2
    simp only [List.map_cons, List.sum_cons, hmini, hacc]
    rw [List.replicate_add]

/-! ### Claims about the translation orchestrator -/

/-- Claim C1: for every input segment list, whenever translate_segments
returns a list, the returned list contains exactly as many segments as the
input and in the same order, the i-th output segment being derived from the
i-th input segment, regardless of strategy and of backend behaviour (in the
embedding the function always returns its list: the outer Python try block
never sees an exception from the modelled statements).  Order is expressed
by the fact that erasing the text field of the i-th output segment yields
exactly the i-th input segment with its text erased. -/
theorem translate_segments_count_order (b : Backend) (segments : List Segment)
    (reference_material : Option String) :
    (translate_segments b segments reference_material).length = segments.length ∧
    ∀ i : Nat,
      ((translate_segments b segments reference_material)[i]?).map
          (fun s => { s with text := "" }) =
        (segments[i]?).map (fun s => { s with text := "" }) := by
  obtain ⟨tst, heq⟩ := translate_segments_eq_assemble b segments reference_material
  rw [heq]
  refine ⟨assembleLoop_length tst 0 segments, ?_⟩
  intro i
  rw [assembleLoop_getElem?]
  cases segments[i]? with
  | none => rfl
  | some s =>
    simp only [Option.map_some']
    rw [assembleOne_erase_text]

/-- Claim C10 (implicit frame effect): whenever translate_segments returns a
list, the i-th output segment preserves every field of the i-th input
segment other than text; in particular start, end and words are exactly
those of the corresponding input segment. -/
theorem translate_segments_frame (b : Backend) (segments : List Segment)
    (reference_material : Option String) (i : Nat) :
    ((translate_segments b segments reference_material)[i]?).map
        (fun s => (s.start, s.«end», s.words)) =
      (segments[i]?).map (fun s => (s.start, s.«end», s.words)) := by
  obtain ⟨tst, heq⟩ := translate_segments_eq_assemble b segments reference_material
  rw [heq, assembleLoop_getElem?]
  cases segments[i]? with
  | none => rfl
  | some s =>
    simp only [Option.map_some']
    obtain ⟨h1, h2, h3⟩ := assembleOne_fields tst (0 + i) s
    rw [h1, h2, h3]

theorem assembleOne_of_placeholder (tst : List String) (i : Nat) {s : Segment}
    (h : pyStrip s.text = "[no speech]") :
    assembleOne tst i s = { s with text := "" } := by
  simp only [assembleOne]
  rw [if_pos h]

/-- Claim C8: in every list returned by translate_segments, every segment
whose original source text equals the silence placeholder "[no speech]" has
its translated text forced to the empty string, regardless of what the
translation backend returned for it. -/
theorem translate_segments_silence (b : Backend) (segments : List Segment)
    (reference_material : Option String) (i : Nat) (s : Segment)
    (hs : segments[i]? = some s) (ht : s.text = "[no speech]") :
    ((translate_segments b segments reference_material)[i]?).map Segment.text =
      some "" := by
  obtain ⟨tst, heq⟩ := translate_segments_eq_assemble b segments reference_material
  rw [heq, assembleLoop_getElem?, hs]
  have hstrip : pyStrip s.text = "[no speech]" := by
    rw [ht]
    decide
  simp only [Option.map_some']
  rw [assembleOne_of_placeholder tst (0 + i) hstrip]

/-- Witness for C8: a concrete run in which the backend produces text for
the placeholder segment, yet its translated text is the empty string. -/
theorem translate_segments_silence_witness :
    ((translate_segments (fun _ _ _ => some ["HELLO"])
        [{ text := "[no speech]", start := 0, «end» := 1, words := [] }]
        none)[0]?).map Segment.text = some "" :=
  translate_segments_silence (fun _ _ _ => some ["HELLO"])
    [{ text := "[no speech]", start := 0, «end» := 1, words := [] }]
    none 0 { text := "[no speech]", start := 0, «end» := 1, words := [] }
    rfl rfl

/-- Claim C2: the cascading fallback of the sliding-window strategy (chunk,
then sub-chunks of 50, then mini-chunks of 10, then one empty string per
segment of a failed mini-chunk) never aborts and never misaligns: for every
backend behaviour it yields exactly one translated text per chunk segment,
and when every call fails the result is exactly one empty string per
segment. -/
theorem chunk_cascade_total :
    (∀ (b : Backend) (n : Nat) (chunk : List Segment) (context : String × String),
      (chunkFallback b n chunk context).1.length = chunk.length) ∧
    (∀ (n : Nat) (chunk : List Segment) (context : String × String),
      (chunkFallback (fun _ _ _ => none) n chunk context).1 =
        List.replicate chunk.length "") := by
  constructor
  · exact chunkFallback_length
  · intro n chunk context
    unfold chunkFallback
    simp only [tChunk]
    rw [subLoop_allFail, ← List.length_flatten, chunksOf_flatten 50 (by norm_num)]

/-- Claim C9 as amended: the cleanup of translate_segments replaces exactly
the full-width comma and the ideographic full stop by spaces; consequently
no output text of translate_segments contains either of these two
characters.  (Other full-width East-Asian punctuation is not normalized,
see the counterexample.) -/
theorem translate_segments_cleanup (b : Backend) (segments : List Segment)
    (reference_material : Option String) (s : Segment)
    (hmem : s ∈ translate_segments b segments reference_material) :
    '，' ∉ s.text.data ∧ '。' ∉ s.text.data := by
  obtain ⟨tst, heq⟩ := translate_segments_eq_assemble b segments reference_material
  rw [heq] at hmem
  rcases text_of_mem_assembleLoop tst segments 0 s hmem with h | ⟨t, h⟩
  · rw [h]
    constructor <;> intro h2 <;> cases h2
  · rw [h]
    exact cleanupText_no_fullwidth t

/-- Witness for the amended C9: a concrete run in which the backend answer
contains a full-width comma, and the corresponding output text (with the
comma replaced by a space and stripped) contains neither of the two
normalized characters. -/
theorem translate_segments_cleanup_witness :
    '，' ∉ ({ text := "x y", start := 0, «end» := 1, words := [] } : Segment).text.data ∧
    '。' ∉ ({ text := "x y", start := 0, «end» := 1, words := [] } : Segment).text.data :=
  translate_segments_cleanup (fun _ _ _ => some ["x，y"])
    [{ text := "hi", start := 0, «end» := 1, words := [] }] none
    { text := "x y", start := 0, «end» := 1, words := [] } (by decide)

/-- Counterexample to C9 as stated: the code replaces only the full-width
comma and the ideographic full stop, so other full-width East-Asian
punctuation returned by the backend survives into the successfully
translated text: here the backend returns an ideographic comma for an
ordinary segment and the output text still contains it. -/
theorem translate_segments_cleanup_counterexample :
    ∃ s ∈ translate_segments (fun _ _ _ => some ["、a"])
        [{ text := "hi", start := 0, «end» := 1, words := [] }] none,
      s.text.data.any isFullwidthPunct = true := by
  decide

/-! ### Lemmas and claims about the gap filler -/

theorem fillLoop_eq_spec (gap_threshold : Rat) (placeholder : String) :
    ∀ (rest : List Segment) (cur : Segment),
      cur :: fillLoop gap_threshold placeholder cur rest =
        gapFillSpec gap_threshold placeholder (cur :: rest) := by
  intro rest
  induction rest with
  | nil => intro cur; rfl
  | cons t r ih =>
    intro cur
    simp only [fillLoop, gapFillSpec]
    by_cases h : t.start - cur.«end» > gap_threshold
    · rw [if_pos h, if_pos h, ← ih t]
      simp
    · rw [if_neg h, if_neg h, ← ih t]
      simp

theorem sublist_fillLoop (gap_threshold : Rat) (placeholder : String) :
    ∀ (rest : List Segment) (cur : Segment),
      List.Sublist rest (fillLoop gap_threshold placeholder cur rest) := by
  intro rest
  induction rest with
  | nil => intro cur; exact List.Sublist.slnil
  | cons t r ih =>
    intro cur
    simp only [fillLoop]
    by_cases h : t.start - cur.«end» > gap_threshold
    · rw [if_pos h, List.singleton_append]
      exact List.Sublist.cons _ (List.Sublist.cons₂ t (ih t))
    · rw [if_neg h, List.nil_append]
      exact List.Sublist.cons₂ t (ih t)

/-- Claim C5: for every segment stream, fill_transcription_gaps returns all
original segments unchanged and in order, inserting between each adjacent
pair whose gap strictly exceeds the threshold a placeholder segment that
starts at the end of the first and ends at the start of the second (so its
duration equals the true gap); this is expressed by equality with the
specification-worded gapFillSpec, together with the facts that the input is
a sublist of the output and that empty and singleton inputs pass through
unchanged. -/
theorem fill_transcription_gaps_spec (segments : List Segment)
    (gap_threshold : Rat) (placeholder : String) :
    fill_transcription_gaps segments gap_threshold placeholder =
      gapFillSpec gap_threshold placeholder segments ∧
    List.Sublist segments (fill_transcription_gaps segments gap_threshold placeholder) ∧
    fill_transcription_gaps ([] : List Segment) gap_threshold placeholder = [] ∧
    ∀ s : Segment, fill_transcription_gaps [s] gap_threshold placeholder = [s] := by
  refine ⟨?_, ?_, rfl, fun s => rfl⟩
  · cases segments with
    | nil => rfl
    | cons s rest => exact fillLoop_eq_spec gap_threshold placeholder rest s
  · cases segments with
    | nil => exact List.Sublist.slnil
    | cons s rest =>
      exact List.Sublist.cons₂ s (sublist_fillLoop gap_threshold placeholder rest s)

/-! ### Lemmas and claims about the timing adjuster -/

theorem getLast?_cons_of_ne_nil {α : Type _} (x : α) {l : List α} (h : l ≠ []) :
    (x :: l).getLast? = l.getLast? := by
  cases l with
  | nil => exact absurd rfl h
  | cons y ys => exact List.getLast?_cons_cons

theorem adjustLoop_ne_nil (tb : Rat) (l : List Segment) (h : l ≠ []) :
    adjustLoop tb l ≠ [] := by
  cases l with
  | nil => exact absurd rfl h
  | cons s rest =>
    cases rest with
    | nil => simp [adjustLoop]
    | cons t r => simp [adjustLoop]

theorem adjustLoop_length (tb : Rat) : ∀ l : List Segment,
    (adjustLoop tb l).length = l.length
  | [] => rfl
  | [_] => rfl
  | s :: t :: r => by
    have h1 : adjustLoop tb (s :: t :: r) =
        { s with «end» := if t.start - tb < s.start then s.start
                          else t.start - tb } :: adjustLoop tb (t :: r) := rfl
    rw [h1, List.length_cons, List.length_cons, adjustLoop_length tb (t :: r),
      List.length_cons]

theorem adjustLoop_getLast? (tb : Rat) : ∀ l : List Segment,
    (adjustLoop tb l).getLast? = l.getLast? := by
  intro l
  induction l with
  | nil => rfl
  | cons s rest ih =>
    cases rest with
    | nil => rfl
    | cons t r =>
      have h1 : adjustLoop tb (s :: t :: r) =
          { s with «end» := if t.start - tb < s.start then s.start
                            else t.start - tb } :: adjustLoop tb (t :: r) := rfl
      rw [h1, getLast?_cons_of_ne_nil _ (adjustLoop_ne_nil tb (t :: r) (by simp)),
        ih, List.getLast?_cons_cons]

theorem adjustLoop_head_start (tb : Rat) (l : List Segment) :
    (adjustLoop tb l).head?.map Segment.start = l.head?.map Segment.start := by
  cases l with
  | nil => rfl
  | cons s rest =>
    cases rest with
    | nil => rfl
    | cons t r => rfl

theorem adjustLoop_getElem? (tb : Rat) : ∀ (l : List Segment) (i : Nat) (s t : Segment),
    l[i]? = some s → l[i + 1]? = some t →
      (adjustLoop tb l)[i]? =
        some { s with «end» := max s.start (t.start - tb) } := by
  intro l
  induction l with
  | nil => intro i s t hs ht; cases hs
  | cons x xs ih =>
    intro i s t hs ht
    cases xs with
    | nil =>
      rcases i with - | i2 <;> cases ht
    | cons y ys =>
      have h1 : adjustLoop tb (x :: y :: ys) =
          { x with «end» := if y.start - tb < x.start then x.start
                            else y.start - tb } :: adjustLoop tb (y :: ys) := rfl
      cases i with
      | zero =>
        rw [List.getElem?_cons_zero] at hs
        rw [List.getElem?_cons_succ, List.getElem?_cons_zero] at ht
        injection hs with hs2
        injection ht with ht2
        rw [h1, List.getElem?_cons_zero, ← hs2, ← ht2]
        congr 2
        by_cases hc : y.start - tb < x.start
        · rw [if_pos hc, max_eq_left hc.le]
        · rw [if_neg hc, max_eq_right (not_lt.mp hc)]
      | succ i2 =>
        rw [List.getElem?_cons_succ] at hs
        rw [List.getElem?_cons_succ] at ht
        rw [h1, List.getElem?_cons_succ]
        exact ih i2 s t hs ht

/-- Claim C6 as amended: for every segment list and every NON-NEGATIVE
timeBuffer (the code first clamps negative buffers to zero, which the
original claim omits, see the counterexample), adjust_subtitle_timing sets
the end of each segment except the last to the start of the next segment
minus the buffer, clamped up to its own start (so end is at least start for
each such segment), leaves the last segment entirely unmodified, and
preserves the length. -/
theorem adjust_subtitle_timing_spec (segments : List Segment) (time_buffer : Rat)
    (hb : 0 ≤ time_buffer) (i : Nat) (s t : Segment)
    (hs : segments[i]? = some s) (ht : segments[i + 1]? = some t) :
    (adjust_subtitle_timing segments time_buffer)[i]? =
      some { s with «end» := max s.start (t.start - time_buffer) } ∧
    s.start ≤ max s.start (t.start - time_buffer) ∧
    (adjust_subtitle_timing segments time_buffer).getLast? = segments.getLast? ∧
    (adjust_subtitle_timing segments time_buffer).length = segments.length := by
  have hmax : (if time_buffer < 0 then 0 else time_buffer) = time_buffer :=
    if_neg (not_lt.mpr hb)
  unfold adjust_subtitle_timing
  rw [hmax]
  exact ⟨adjustLoop_getElem? time_buffer segments i s t hs ht, le_max_left _ _,
    adjustLoop_getLast? time_buffer segments, adjustLoop_length time_buffer segments⟩

/-- Witness for the amended C6: a concrete run with buffer 1/10 on the
specification scenario, where the first end becomes 39/20 = 1.95, at least
its start, and the last segment is untouched. -/
theorem adjust_subtitle_timing_spec_witness :
    (adjust_subtitle_timing
        [{ text := "a", start := 0, «end» := 2, words := [] },
         { text := "b", start := 41/20, «end» := 4, words := [] }] (1/10))[0]? =
      some { text := "a", start := 0,
             «end» := max (0 : Rat) (41/20 - 1/10), words := [] } ∧
    (0 : Rat) ≤ max (0 : Rat) (41/20 - 1/10) ∧
    (adjust_subtitle_timing
        [{ text := "a", start := 0, «end» := 2, words := [] },
         { text := "b", start := 41/20, «end» := 4, words := [] }] (1/10)).getLast? =
      ([{ text := "a", start := 0, «end» := 2, words := [] },
        { text := "b", start := 41/20, «end» := 4, words := [] }] : List Segment).getLast? ∧
    (adjust_subtitle_timing
        [{ text := "a", start := 0, «end» := 2, words := [] },
         { text := "b", start := 41/20, «end» := 4, words := [] }] (1/10)).length =
      ([{ text := "a", start := 0, «end» := 2, words := [] },
        { text := "b", start := 41/20, «end» := 4, words := [] }] : List Segment).length :=
  adjust_subtitle_timing_spec
    [{ text := "a", start := 0, «end» := 2, words := [] },
     { text := "b", start := 41/20, «end» := 4, words := [] }] (1/10)
    (by norm_num) 0
    { text := "a", start := 0, «end» := 2, words := [] }
    { text := "b", start := 41/20, «end» := 4, words := [] } rfl rfl

/-- Counterexample to C6 as stated: the claim quantifies over every
timeBuffer, but the code clamps negative buffers to zero.  With buffer -1
and segments starting at 0 and 5, the code sets the first end to 5, while
the claimed formula (next start minus buffer, clamped to own start) would
give 6. -/
theorem adjust_subtitle_timing_counterexample :
    ((adjust_subtitle_timing
        [{ text := "a", start := 0, «end» := 0, words := [] },
         { text := "b", start := 5, «end» := 6, words := [] }] (-1))[0]?).map Segment.«end» =
      some 5 ∧
    ¬ ((5 : Rat) = max (0 : Rat) (5 - (-1))) := by
  constructor
  · have htb : (if (-1 : Rat) < 0 then (0 : Rat) else (-1)) = 0 := if_pos (by norm_num)
    unfold adjust_subtitle_timing
    rw [htb]
    have h1 : adjustLoop (0 : Rat)
        [{ text := "a", start := 0, «end» := 0, words := [] },
         { text := "b", start := 5, «end» := 6, words := [] }] =
        [{ text := "a", start := 0,
           «end» := if (5 : Rat) - 0 < 0 then 0 else 5 - 0, words := [] },
         { text := "b", start := 5, «end» := 6, words := [] }] := rfl
    rw [h1]
    have h2 : (if (5 : Rat) - 0 < 0 then (0 : Rat) else 5 - 0) = 5 := by norm_num
    rw [h2]
    rfl
  · rw [max_eq_right (by norm_num : (0 : Rat) ≤ 5 - (-1))]
    norm_num

theorem adjustLoop_idem (tb : Rat) : ∀ l : List Segment,
    adjustLoop tb (adjustLoop tb l) = adjustLoop tb l := by
  intro l
  induction l with
  | nil => rfl
  | cons s rest ih =>
    cases rest with
    | nil => rfl
    | cons t r =>
      have hS : adjustLoop tb (s :: t :: r) =
          { s with «end» := if t.start - tb < s.start then s.start
                            else t.start - tb } :: adjustLoop tb (t :: r) := rfl
      rcases hA : adjustLoop tb (t :: r) with - | ⟨t2, X⟩
      · exact absurd hA (adjustLoop_ne_nil tb (t :: r) (by simp))
      · have hhead := adjustLoop_head_start tb (t :: r)
        rw [hA] at hhead
        simp only [List.head?_cons, Option.map_some', Option.some.injEq] at hhead
        have ht2 : t2.start = t.start := hhead
        rw [hA] at ih
        rw [hS, hA]
        have hS2 : adjustLoop tb
            (({ s with «end» := if t.start - tb < s.start then s.start
                                else t.start - tb } : Segment) :: t2 :: X) =
            { s with «end» := if t2.start - tb < s.start then s.start
                              else t2.start - tb } :: adjustLoop tb (t2 :: X) := rfl
        rw [hS2, ht2, ih]

/-- Claim C7: adjust_subtitle_timing is idempotent: applying it twice with
the same buffer produces the same result as applying it once. -/
theorem adjust_subtitle_timing_idem (segments : List Segment) (time_buffer : Rat) :
    adjust_subtitle_timing (adjust_subtitle_timing segments time_buffer) time_buffer =
      adjust_subtitle_timing segments time_buffer := by
  unfold adjust_subtitle_timing
  exact adjustLoop_idem (if time_buffer < 0 then 0 else time_buffer) segments

/-! ### Lemmas about the segment splitter -/

theorem joinWordsData_append (a b : List Word) :
    joinWordsData (a ++ b) = joinWordsData a ++ joinWordsData b := by
  unfold joinWordsData
  rw [List.map_append, List.flatten_append]

theorem joinWordsData_single (w : Word) : joinWordsData [w] = w.word.data := by
  unfold joinWordsData
  simp

theorem joinWordsData_cons (w : Word) (l : List Word) :
    joinWordsData (w :: l) = w.word.data ++ joinWordsData l := rfl

theorem textConcat_append (a b : List Segment) :
    textConcat (a ++ b) = textConcat a ++ textConcat b := by
  unfold textConcat
  rw [List.map_append, List.flatten_append]

theorem textConcat_cons (s : Segment) (l : List Segment) :
    textConcat (s :: l) = s.text.data ++ textConcat l := rfl

theorem head?_append_left {α : Type _} {a : List α} (b : List α) (h : a ≠ []) :
    (a ++ b).head? = a.head? := by
  cases a with
  | nil => exact absurd rfl h
  | cons x xs => rfl

theorem endsNonWs_of_goodWord {w : Word} (h : goodWord w = true) :
    endsNonWs w.word.data := by
  unfold goodWord at h
  rw [Bool.and_eq_true] at h
  obtain ⟨h1, h2⟩ := h
  rcases hl : w.word.data.getLast? with - | c
  · rw [List.getLast?_eq_none_iff] at hl
    rw [hl] at h1
    simp at h1
  · refine ⟨c, hl, ?_⟩
    rw [hl] at h2
    have h3 : (!c.isWhitespace) = true := h2
    simpa using h3

theorem endsNonWs_joinWordsData {c : List Word} {w : Word} (hw : goodWord w = true) :
    endsNonWs (joinWordsData (c ++ [w])) := by
  obtain ⟨ch, hch, hchw⟩ := endsNonWs_of_goodWord hw
  refine ⟨ch, ?_, hchw⟩
  rw [joinWordsData_append, joinWordsData_single,
    List.getLast?_append_of_ne_nil _ (endsNonWs.ne_nil (endsNonWs_of_goodWord hw))]
  exact hch

theorem stripChars_join_append {c : List Word} {w nw : Word} (hw : goodWord w = true)
    (hnw : goodWord nw = true) :
    stripChars (joinWordsData ((c ++ [w]) ++ [nw])) =
      stripChars (joinWordsData (c ++ [w])) ++ nw.word.data := by
  rw [joinWordsData_append (c ++ [w]) [nw], joinWordsData_single]
  exact stripChars_append_of_endsNonWs (endsNonWs_joinWordsData hw)
    (endsNonWs_of_goodWord hnw)

theorem splitOneSegment_eq (mc : Nat) (md : Rat) (seg : Segment) :
    splitOneSegment mc md seg =
      if (pyStrip seg.text).length ≤ mc ∧ seg.«end» - seg.start ≤ md then [seg]
      else
        match seg.words with
        | [] => [seg]
        | w :: ws => splitLoop mc md [] w.start (w :: ws) := rfl

theorem splitLoop_single (mc : Nat) (md : Rat) (chunk : List Word) (cs : Rat)
    (w : Word) :
    splitLoop mc md chunk cs [w] =
      [{ text := String.mk (stripChars (joinWordsData (chunk ++ [w]))),
         start := cs, «end» := w.«end», words := chunk ++ [w] }] := rfl

theorem splitLoop_cons2 (mc : Nat) (md : Rat) (chunk : List Word) (cs : Rat)
    (w nw : Word) (rest2 : List Word) :
    splitLoop mc md chunk cs (w :: nw :: rest2) =
      if decide ((stripChars (joinWordsData (chunk ++ [w]))).length +
            nw.word.length > mc) ||
          decide (nw.«end» - cs > md) || (nw :: rest2).isEmpty then
        { text := String.mk (stripChars (joinWordsData (chunk ++ [w]))),
          start := cs, «end» := w.«end», words := chunk ++ [w] } ::
          splitLoop mc md [] nw.start (nw :: rest2)
      else splitLoop mc md (chunk ++ [w]) cs (nw :: rest2) := rfl

theorem splitLoop_ne_nil (mc : Nat) (md : Rat) :
    ∀ (rest chunk : List Word) (cs : Rat), rest ≠ [] →
      splitLoop mc md chunk cs rest ≠ [] := by
  intro rest
  induction rest with
  | nil => intro chunk cs h; exact absurd rfl h
  | cons w rest ih =>
    intro chunk cs h
    cases rest with
    | nil =>
      rw [splitLoop_single]
      simp
    | cons nw rest2 =>
      rw [splitLoop_cons2]
      split
      · simp
      · exact ih (chunk ++ [w]) cs (by simp)

theorem splitLoop_head_start (mc : Nat) (md : Rat) :
    ∀ (rest chunk : List Word) (cs : Rat), rest ≠ [] →
      (splitLoop mc md chunk cs rest).head?.map Segment.start = some cs := by
  intro rest
  induction rest with
  | nil => intro chunk cs h; exact absurd rfl h
  | cons w rest ih =>
    intro chunk cs h
    cases rest with
    | nil =>
      rw [splitLoop_single]
      rfl
    | cons nw rest2 =>
      rw [splitLoop_cons2]
      split
      · rfl
      · exact ih (chunk ++ [w]) cs (by simp)

theorem splitLoop_last_end (mc : Nat) (md : Rat) :
    ∀ (rest chunk : List Word) (cs : Rat), rest ≠ [] →
      (splitLoop mc md chunk cs rest).getLast?.map Segment.«end» =
        rest.getLast?.map Word.«end» := by
  intro rest
  induction rest with
  | nil => intro chunk cs h; exact absurd rfl h
  | cons w rest ih =>
    intro chunk cs h
    cases rest with
    | nil =>
      rw [splitLoop_single]
      rfl
    | cons nw rest2 =>
      rw [splitLoop_cons2]
      split
      · rw [getLast?_cons_of_ne_nil _
          (splitLoop_ne_nil mc md (nw :: rest2) [] nw.start (by simp)),
          ih [] nw.start (by simp), List.getLast?_cons_cons]
      · rw [ih (chunk ++ [w]) cs (by simp), List.getLast?_cons_cons]

theorem splitLoop_removeWs (mc : Nat) (md : Rat) :
    ∀ (rest chunk : List Word) (cs : Rat), rest ≠ [] →
      removeWs (textConcat (splitLoop mc md chunk cs rest)) =
        removeWs (joinWordsData (chunk ++ rest)) := by
  intro rest
  induction rest with
  | nil => intro chunk cs h; exact absurd rfl h
  | cons w rest ih =>
    intro chunk cs h
    cases rest with
    | nil =>
      rw [splitLoop_single]
      show removeWs (stripChars (joinWordsData (chunk ++ [w])) ++ []) =
        removeWs (joinWordsData (chunk ++ [w]))
      rw [List.append_nil, removeWs_stripChars]
    | cons nw rest2 =>
      rw [splitLoop_cons2]
      split
      · rw [textConcat_cons]
        show removeWs (stripChars (joinWordsData (chunk ++ [w])) ++
            textConcat (splitLoop mc md [] nw.start (nw :: rest2))) =
          removeWs (joinWordsData (chunk ++ w :: nw :: rest2))
        rw [removeWs_append, removeWs_stripChars, ih [] nw.start (by simp),
          List.nil_append, List.append_cons chunk w (nw :: rest2)]
        simp [joinWordsData_append, joinWordsData_single, joinWordsData_cons,
          removeWs_append, List.append_assoc]
        rfl
      · rw [ih (chunk ++ [w]) cs (by simp),
          List.append_cons chunk w (nw :: rest2)]

theorem splitOneSegment_preserves (mc : Nat) (md : Rat) (seg : Segment)
    (h : wordsConsistent seg = true) :
    splitOneSegment mc md seg ≠ [] ∧
    (splitOneSegment mc md seg).head?.map Segment.start = some seg.start ∧
    (splitOneSegment mc md seg).getLast?.map Segment.«end» = some seg.«end» ∧
    removeWs (textConcat (splitOneSegment mc md seg)) = removeWs seg.text.data := by
  rw [splitOneSegment_eq]
  split
  · refine ⟨by simp, rfl, rfl, ?_⟩
    show removeWs (seg.text.data ++ []) = removeWs seg.text.data
    rw [List.append_nil]
  · split
    · refine ⟨by simp, rfl, rfl, ?_⟩
      show removeWs (seg.text.data ++ []) = removeWs seg.text.data
      rw [List.append_nil]
    · rename_i w0 ws hcons
      unfold wordsConsistent at h
      rw [hcons] at h
      simp only [List.isEmpty_cons, Bool.false_or, Bool.and_eq_true,
        decide_eq_true_eq] at h
      obtain ⟨⟨hstart, hend⟩, htext⟩ := h
      refine ⟨splitLoop_ne_nil mc md (w0 :: ws) [] w0.start (by simp), ?_, ?_, ?_⟩
      · rw [splitLoop_head_start mc md (w0 :: ws) [] w0.start (by simp)]
        simpa using hstart
      · rw [splitLoop_last_end mc md (w0 :: ws) [] w0.start (by simp)]
        exact hend
      · rw [splitLoop_removeWs mc md (w0 :: ws) [] w0.start (by simp),
          List.nil_append]
        exact htext

theorem splitLoop_limits (mc : Nat) (md : Rat) :
    ∀ (rest chunk : List Word) (cs : Rat),
      (∀ x ∈ chunk ++ rest, goodWord x = true) →
      (chunk = [] ∨ ∀ w0, rest.head? = some w0 →
        (stripChars (joinWordsData (chunk ++ [w0]))).length ≤ mc ∧
          w0.«end» - cs ≤ md) →
      ∀ s ∈ splitLoop mc md chunk cs rest,
        ((pyStrip s.text).length ≤ mc ∧ s.«end» - s.start ≤ md) ∨
          s.words.length = 1 := by
  intro rest
  induction rest with
  | nil =>
    intro chunk cs hg hinv s hs
    rw [show splitLoop mc md chunk cs [] = [] from rfl] at hs
    cases hs
  | cons w rest ih =>
    intro chunk cs hg hinv s hs
    cases rest with
    | nil =>
      rw [splitLoop_single] at hs
      rcases List.mem_singleton.mp hs with rfl
      cases chunk with
      | nil => right; simp
      | cons c0 c1 =>
        left
        rcases hinv with h0 | hinv
        · cases h0
        · obtain ⟨h1, h2⟩ := hinv w rfl
          refine ⟨?_, h2⟩
          show (stripChars (stripChars (joinWordsData ((c0 :: c1) ++ [w])))).length ≤ mc
          rw [stripChars_idem]
          exact h1
    | cons nw rest2 =>
      rw [splitLoop_cons2] at hs
      split at hs
      · rcases List.mem_cons.mp hs with rfl | hs2
        · cases chunk with
          | nil => right; simp
          | cons c0 c1 =>
            left
            rcases hinv with h0 | hinv
            · cases h0
            · obtain ⟨h1, h2⟩ := hinv w rfl
              refine ⟨?_, h2⟩
              show (stripChars (stripChars (joinWordsData ((c0 :: c1) ++ [w])))).length ≤ mc
              rw [stripChars_idem]
              exact h1
        · refine ih [] nw.start ?_ (Or.inl rfl) s hs2
          intro x hx
          refine hg x ?_
          rw [List.nil_append] at hx
          simp only [List.mem_append, List.mem_cons]
          right
          right
          simpa using hx
      · rename_i hcond
        simp only [Bool.or_eq_true, decide_eq_true_eq, List.isEmpty_cons,
          Bool.false_eq_true, or_false] at hcond
        obtain ⟨hA, hB⟩ := not_or.mp hcond
        have hw : goodWord w = true := hg w (by simp)
        have hnw : goodWord nw = true := hg nw (by simp)
        refine ih (chunk ++ [w]) cs ?_ (Or.inr ?_) s hs
        · intro x hx
          refine hg x ?_
          simp only [List.mem_append, List.mem_singleton, List.mem_cons] at hx ⊢
          tauto
        · intro w0 h0
          rw [List.head?_cons] at h0
          injection h0 with h0
          subst h0
          constructor
          · rw [stripChars_join_append hw hnw, List.length_append]
            exact not_lt.mp hA
          · exact not_lt.mp hB

/-- Claim C3 as amended: for every segment stream in which every segment
carries word-level timestamps and every word string is non-empty and ends
with a non-whitespace character, every output segment of
split_long_segments either respects both limits (its stripped text no
longer than maxChars and its span no longer than maxDuration) or is a chunk
made of a single word (a single word alone exceeding a limit still becomes
its own chunk and may exceed; and the length limit is on the stripped text,
passed-through segments keeping their surrounding whitespace). -/
theorem split_long_segments_limits (segments : List Segment) (mc : Nat) (md : Rat)
    (hw : ∀ seg ∈ segments, seg.words ≠ [])
    (hg : ∀ seg ∈ segments, ∀ x ∈ seg.words, goodWord x = true) :
    ∀ s ∈ split_long_segments segments mc md,
      ((pyStrip s.text).length ≤ mc ∧ s.«end» - s.start ≤ md) ∨
        s.words.length = 1 := by
  induction segments with
  | nil =>
    intro s hs
    rw [show split_long_segments [] mc md = [] from rfl] at hs
    cases hs
  | cons seg rest ih =>
    intro s hs
    rw [show split_long_segments (seg :: rest) mc md =
        splitOneSegment mc md seg ++ split_long_segments rest mc md from rfl] at hs
    rcases List.mem_append.mp hs with hs1 | hs2
    · rw [splitOneSegment_eq] at hs1
      split at hs1
      · rename_i hcond
        rcases List.mem_singleton.mp hs1 with rfl
        exact Or.inl hcond
      · split at hs1
        · rename_i hnil
          exact absurd hnil (hw seg (by simp))
        · rename_i w0 ws hcons
          refine splitLoop_limits mc md (w0 :: ws) [] w0.start ?_ (Or.inl rfl) s hs1
          intro x hx
          refine hg seg (by simp) x ?_
          rw [hcons]
          rw [List.nil_append] at hx
          exact hx
    · exact ih (fun t ht => hw t (by simp [ht])) (fun t ht => hg t (by simp [ht])) s hs2

/-- Witness for the amended C3: a concrete stream with well-formed words
that gets split; the first output chunk satisfies the disjunction. -/
theorem split_long_segments_limits_witness :
    ((pyStrip (Segment.mk "hello" 0 1 [Word.mk "hello" 0 1]).text).length ≤ 6 ∧
      (Segment.mk "hello" 0 1 [Word.mk "hello" 0 1]).«end» -
        (Segment.mk "hello" 0 1 [Word.mk "hello" 0 1]).start ≤ 100) ∨
    (Segment.mk "hello" 0 1 [Word.mk "hello" 0 1]).words.length = 1 :=
  split_long_segments_limits
    [Segment.mk "hello world" 0 2 [Word.mk "hello" 0 1, Word.mk " world" 1 2]] 6 100
    (by decide) (by decide)
    (Segment.mk "hello" 0 1 [Word.mk "hello" 0 1])
    (by decide)

/-- Counterexample to C3 as stated: every input segment carries word-level
timestamps, yet the output contains a segment whose text exceeds maxChars:
a single word longer than the limit becomes its own chunk (words are never
split). -/
theorem split_long_segments_limits_counterexample :
    (∀ seg ∈ [Segment.mk "abcdef" 0 1 [Word.mk "abcdef" 0 1]], seg.words ≠ []) ∧
    ∃ s ∈ split_long_segments [Segment.mk "abcdef" 0 1 [Word.mk "abcdef" 0 1]] 3 100,
      3 < s.text.length :=
  ⟨by decide, by decide⟩

/-- Claim C4 as amended: for every segment stream satisfying the data-model
invariant for word timestamps (when words are present, they span exactly the
segment and their concatenation equals the segment text up to whitespace),
the output of split_long_segments covers the same total time range as the
input (same start of the first and end of the last segment) and its
concatenated text equals the concatenated input text modulo whitespace. -/
theorem split_long_segments_preserves (segments : List Segment) (mc : Nat) (md : Rat)
    (hc : ∀ seg ∈ segments, wordsConsistent seg = true) :
    removeWs (textConcat (split_long_segments segments mc md)) =
      removeWs (textConcat segments) ∧
    (split_long_segments segments mc md).head?.map Segment.start =
      segments.head?.map Segment.start ∧
    (split_long_segments segments mc md).getLast?.map Segment.«end» =
      segments.getLast?.map Segment.«end» := by
  induction segments with
  | nil => exact ⟨rfl, rfl, rfl⟩
  | cons seg rest ih =>
    obtain ⟨hne, hhead, hlast, htext⟩ :=
      splitOneSegment_preserves mc md seg (hc seg (by simp))
    obtain ⟨ihtext, ihhead, ihlast⟩ := ih (fun t ht => hc t (by simp [ht]))
    rw [show split_long_segments (seg :: rest) mc md =
        splitOneSegment mc md seg ++ split_long_segments rest mc md from rfl]
    refine ⟨?_, ?_, ?_⟩
    · rw [textConcat_append, removeWs_append, htext, ihtext, textConcat_cons,
        removeWs_append]
    · rw [head?_append_left _ hne, hhead, List.head?_cons, Option.map_some']
    · cases rest with
      | nil =>
        rw [show split_long_segments [] mc md = [] from rfl, List.append_nil, hlast]
        rfl
      | cons r0 r1 =>
        have hBne : split_long_segments (r0 :: r1) mc md ≠ [] := by
          rw [show split_long_segments (r0 :: r1) mc md =
              splitOneSegment mc md r0 ++ split_long_segments r1 mc md from rfl]
          have h0 := (splitOneSegment_preserves mc md r0 (hc r0 (by simp))).1
          intro hemp
          rw [List.append_eq_nil] at hemp
          exact h0 hemp.1
        rw [List.getLast?_append_of_ne_nil _ hBne, ihlast,
          getLast?_cons_of_ne_nil seg (by simp : (r0 :: r1) ≠ [])]

/-- Witness for the amended C4: a concrete consistent stream that gets
split; the conclusion holds at it. -/
theorem split_long_segments_preserves_witness :
    removeWs (textConcat (split_long_segments
        [Segment.mk "hello world" 0 2 [Word.mk "hello" 0 1, Word.mk " world" 1 2]] 6 100)) =
      removeWs (textConcat
        [Segment.mk "hello world" 0 2 [Word.mk "hello" 0 1, Word.mk " world" 1 2]]) ∧
    (split_long_segments
        [Segment.mk "hello world" 0 2 [Word.mk "hello" 0 1, Word.mk " world" 1 2]]
        6 100).head?.map Segment.start =
      [Segment.mk "hello world" 0 2
        [Word.mk "hello" 0 1, Word.mk " world" 1 2]].head?.map Segment.start ∧
    (split_long_segments
        [Segment.mk "hello world" 0 2 [Word.mk "hello" 0 1, Word.mk " world" 1 2]]
        6 100).getLast?.map Segment.«end» =
      [Segment.mk "hello world" 0 2
        [Word.mk "hello" 0 1, Word.mk " world" 1 2]].getLast?.map Segment.«end» :=
  split_long_segments_preserves
    [Segment.mk "hello world" 0 2 [Word.mk "hello" 0 1, Word.mk " world" 1 2]]
    6 100 (by decide)

/-- Counterexample to C4 as stated: when the words of a split segment do not
match its text and span (nothing in the code checks them), neither the
covered time range nor the text content is preserved: the output is rebuilt
purely from the word timestamps. -/
theorem split_long_segments_preserves_counterexample :
    (split_long_segments
        [Segment.mk "abcdef" 0 10 [Word.mk "xy" 2 3]] 3 100).head?.map Segment.start ≠
      [Segment.mk "abcdef" 0 10 [Word.mk "xy" 2 3]].head?.map Segment.start ∧
    removeWs (textConcat (split_long_segments
        [Segment.mk "abcdef" 0 10 [Word.mk "xy" 2 3]] 3 100)) ≠
      removeWs (textConcat [Segment.mk "abcdef" 0 10 [Word.mk "xy" 2 3]]) :=
  ⟨by decide, by decide⟩

end Hermecho
